import Mathlib

/-!
One-dimensional reduction template (`lib/jit/generation/reduce_1d.cpp`).

A shallow embedding of the reduction template of ISAAC: the local-memory tree
reducer, the scratch layout of `unroll_tmp`, the workspace size, and the two
kernels that `generate_impl` emits, read as programs over their threads.

Local arrays are functions from the slot index to the entry; the scratch
array is a list with one slot per group. Thread and slot indices are natural
numbers; the running `unsigned int offset` of `unroll_tmp` wraps at `2^32`.
-/

namespace Isaac

/-! Local-memory tree reducer (`reduce_1d::reduce_1d_local_memory`). -/

/-- One pass of the loop body between two barriers: every lane `lid < stride`
stores `combine buf[lid] buf[lid+stride]` into `buf[lid]`; the other lanes
leave the array alone. -/
def tree_step {α : Type} (combine : α → α → α) (stride : Nat) (buf : Nat → α) : Nat → α :=
  fun lid => if lid < stride then combine (buf lid) (buf (lid + stride)) else buf lid

/-- The loop `for (stride = s; stride > 0; stride /= 2)`, run with a bound on
the number of passes; `none` means the bound was reached with `stride > 0`. -/
def tree_loop {α : Type} (combine : α → α → α) : Nat → Nat → (Nat → α) → Option (Nat → α)
  | _, 0, buf => some buf
  | 0, _ + 1, _ => none
  | fuel + 1, stride + 1, buf =>
      tree_loop combine fuel ((stride + 1) / 2) (tree_step combine (stride + 1) buf)

/-- The code emitted by `reduce_1d_local_memory` for a local array of `size`
entries: the loop starts at `size / 2`. -/
def reduce_1d_local_memory {α : Type} (combine : α → α → α) (size : Nat) (buf : Nat → α) :
    Option (Nat → α) :=
  tree_loop combine size (size / 2) buf

/-- The value `C(i, w)` of the balanced tree, `levels` doublings of `w` below
the leaves: `C(i, G) = slot[i]` and `C(i, w) = combine (C(i, 2w)) (C(i+w, 2w))`. -/
def treeVal {α : Type} (combine : α → α → α) (slots : Nat → α) : Nat → Nat → Nat → α
  | 0, _, i => slots i
  | levels + 1, w, i =>
      combine (treeVal combine slots levels (2 * w) i)
        (treeVal combine slots levels (2 * w) (i + w))

/-- Slot indices at the leaves of the tree `C(i, w)`, left to right. -/
def treeLeaves : Nat → Nat → Nat → List Nat
  | 0, _, i => [i]
  | levels + 1, w, i => treeLeaves levels (2 * w) i ++ treeLeaves levels (2 * w) (i + w)

/-- Largest slot index that can reach slot 0 when the loop starts at `stride`. -/
def reach : Nat → Nat → Nat
  | 0, _ => 0
  | _ + 1, 0 => 0
  | fuel + 1, stride + 1 => (stride + 1) + reach fuel ((stride + 1) / 2)

/-! Scratch layout (`unroll_tmp`) and workspace size (`temporary_workspace`). -/

/-- A fused reduction descriptor (`symbolic::reduce_1d`), as far as the
layout reads it: the generated name that `process` substitutes for `#name`,
and `is_indexing(rd->op().type)`. -/
structure Reduction where
  name : String
  indexing : Bool
deriving DecidableEq, Repr

/-- What `generate_impl` reads of the expression tree for the layout: the
extracted reductions, the text `to_string(tree.dtype())` and the byte size
`size_of(tree.dtype())`. -/
structure expression_tree where
  reductions : List Reduction
  sdtype : String
  size_of_dtype : Nat
deriving DecidableEq, Repr

/-- One scratch-region declaration `$GLOBAL T* name = ($GLOBAL T*)(tmp + offset);`
with the byte size of the pointee `T` (4 for `uint`); `index_slots` marks the
declaration of the index slots of an indexing descriptor. -/
structure TmpDecl where
  ctype : String
  name : String
  offset : Nat
  width : Nat
  index_slots : Bool
deriving DecidableEq, Repr

/-- The text of one declaration as `unroll_tmp` writes it, `#name` already
substituted and the offset printed by `tools::to_string`. -/
def TmpDecl.render (d : TmpDecl) : String :=
  if d.index_slots then
    "$GLOBAL uint* " ++ d.name ++ " = ($GLOBAL uint *)(tmp + " ++ toString d.offset ++ ");"
  else
    "$GLOBAL " ++ d.ctype ++ "* " ++ d.name ++ " = ($GLOBAL " ++ d.ctype ++ "*)(tmp + "
      ++ toString d.offset ++ ");"

/-- Modulus of `unsigned int`, the type of the running `offset`. -/
def UINT_MOD : Nat := 2 ^ 32

/-- The loop of the lambda `unroll_tmp`: walks the reductions in order with
the running `unsigned int offset`, every `offset += …` taken modulo `2^32`;
returns the declarations emitted and the value of `offset` when the loop
ends. -/
def unroll_tmp_loop (sdtype : String) (size_of_dtype ng : Nat) :
    List Reduction → Nat → List TmpDecl × Nat
  | [], offset => ([], offset)
  | rd :: rest, offset =>
    if rd.indexing then
      let offset1 := (offset + (4 * ng) % UINT_MOD) % UINT_MOD
      let offset2 := (offset1 + size_of_dtype * ng) % UINT_MOD
      let r := unroll_tmp_loop sdtype size_of_dtype ng rest offset2
      (⟨"uint", rd.name ++ "_temp", offset, 4, true⟩ ::
        ⟨sdtype, rd.name ++ "_temp_value", offset1, size_of_dtype, false⟩ :: r.1, r.2)
    else
      let offset1 := (offset + size_of_dtype * ng) % UINT_MOD
      let r := unroll_tmp_loop sdtype size_of_dtype ng rest offset1
      (⟨sdtype, rd.name ++ "_temp", offset, size_of_dtype, false⟩ :: r.1, r.2)

/-- One run of `unroll_tmp`: `offset` starts at 0. -/
def unroll_tmp (tree : expression_tree) (ng : Nat) : List TmpDecl × Nat :=
  unroll_tmp_loop tree.sdtype tree.size_of_dtype ng tree.reductions 0

/-- One run of `unroll_tmp` on the output stream: the declarations are
appended to what was written before. -/
def unroll_tmp_emit (tree : expression_tree) (ng : Nat) (stream : List String) : List String :=
  stream ++ (unroll_tmp tree ng).1.map TmpDecl.render

/-- The order of emission in `generate_impl`: head of Kernel 1, `unroll_tmp()`,
rest of Kernel 1, head of Kernel 2, `unroll_tmp()`, rest of Kernel 2. The text
that does not come from `unroll_tmp` is passed in. Returns the stream and the
declarations emitted in each kernel. -/
def generate_impl (tree : expression_tree) (ng : Nat) (head1 body1 head2 body2 : List String) :
    List String × List TmpDecl × List TmpDecl :=
  let stream := head1
  let decls1 := (unroll_tmp tree ng).1
  let stream := unroll_tmp_emit tree ng stream
  let stream := stream ++ body1
  let stream := stream ++ head2
  let decls2 := (unroll_tmp tree ng).1
  let stream := unroll_tmp_emit tree ng stream
  let stream := stream ++ body2
  (stream, decls1, decls2)

/-- The method `reduce_1d::temporary_workspace`: the tree is not read. -/
def temporary_workspace (ng : Nat) (_tree : expression_tree) : Nat :=
  if ng > 1 then ng else 0

/-- Bytes that one descriptor takes in the scratch buffer: `ng` value slots,
and `ng` 4-byte index slots before them for an indexing descriptor. -/
def footprint (size_of_dtype ng : Nat) (rd : Reduction) : Nat :=
  if rd.indexing then 4 * ng + size_of_dtype * ng else size_of_dtype * ng

/-- Sum of the footprints of a list of descriptors. -/
def totalFootprint (size_of_dtype ng : Nat) (rds : List Reduction) : Nat :=
  (rds.map (footprint size_of_dtype ng)).sum

/-- The declarations of one descriptor whose region starts at `start`. -/
def descriptorDecls (sdtype : String) (size_of_dtype ng : Nat) (rd : Reduction)
    (start : Nat) : List TmpDecl :=
  if rd.indexing then
    [⟨"uint", rd.name ++ "_temp", start, 4, true⟩,
     ⟨sdtype, rd.name ++ "_temp_value", start + 4 * ng, size_of_dtype, false⟩]
  else
    [⟨sdtype, rd.name ++ "_temp", start, size_of_dtype, false⟩]

/-- The workspace size in the words of the specification: `K` times the
per-descriptor footprint (element size, plus 4 for an indexing descriptor),
summed over the descriptors, when `K > 1`; zero when `K ≤ 1`. -/
def spec_workspace_bytes (ng : Nat) (tree : expression_tree) : Nat :=
  if ng > 1 then
    (tree.reductions.map
      (fun rd => ng * (tree.size_of_dtype + if rd.indexing then 4 else 0))).sum
  else 0

/-! The two kernels emitted by `generate_impl`. -/

theorem tree_loop_total {α : Type} (combine : α → α → α) :
    ∀ (fuel stride : Nat) (buf : Nat → α), stride ≤ fuel →
      ∃ r, tree_loop combine fuel stride buf = some r := by
  intro fuel
  induction fuel with
  | zero =>
    intro stride buf h
    have : stride = 0 := by omega
    subst this
    exact ⟨buf, rfl⟩
  | succ f ih =>
    intro stride buf h
    cases stride with
    | zero => exact ⟨buf, rfl⟩
    | succ s =>
      have h2 : (s + 1) / 2 ≤ f := by omega
      obtain ⟨r, hr⟩ := ih ((s + 1) / 2) (tree_step combine (s + 1) buf) h2
      exact ⟨r, by simpa [tree_loop] using hr⟩

/-- Combining the two halves first: the tree over the array after the pass
with stride `2^k` is the tree one level deeper over the array before it. -/
theorem treeVal_step {α : Type} (combine : α → α → α) (buf : Nat → α) (k : Nat) :
    ∀ (j w i : Nat), w * 2 ^ j = 2 ^ k → i < w →
      treeVal combine (tree_step combine (2 ^ k) buf) j w i
        = treeVal combine buf (j + 1) w i := by
  intro j
  induction j with
  | zero =>
    intro w i hw hi
    simp only [pow_zero, mul_one] at hw
    subst hw
    simp [treeVal, tree_step, hi]
  | succ j ih =>
    intro w i hw hi
    have hw2 : (2 * w) * 2 ^ j = 2 ^ k := by rw [← hw, pow_succ]; ring
    rw [treeVal, ih (2 * w) i hw2 (by omega), ih (2 * w) (i + w) hw2 (by omega)]
    rfl

theorem tree_loop_pow {α : Type} (combine : α → α → α) :
    ∀ (k fuel : Nat) (buf : Nat → α), 2 ^ k ≤ fuel →
      ∃ r, tree_loop combine fuel (2 ^ k) buf = some r ∧
        r 0 = treeVal combine buf (k + 1) 1 0 := by
  intro k
  induction k with
  | zero =>
    intro fuel buf h
    obtain ⟨f, rfl⟩ : ∃ f, fuel = f + 1 := ⟨fuel - 1, by simp at h; omega⟩
    refine ⟨tree_step combine 1 buf, ?_, ?_⟩
    · simp [tree_loop]
    · simp [tree_step, treeVal]
  | succ k ih =>
    intro fuel buf h
    have hpos : 0 < 2 ^ k := Nat.two_pow_pos k
    obtain ⟨f, rfl⟩ : ∃ f, fuel = f + 1 := ⟨fuel - 1, by rw [pow_succ] at h; omega⟩
    obtain ⟨s, hs⟩ : ∃ s, 2 ^ (k + 1) = s + 1 := ⟨2 ^ (k + 1) - 1, by rw [pow_succ]; omega⟩
    have hhalf : (s + 1) / 2 = 2 ^ k := by rw [← hs, pow_succ]; omega
    have hf : 2 ^ k ≤ f := by rw [pow_succ] at h; omega
    obtain ⟨r, hr, hr0⟩ := ih f (tree_step combine (2 ^ (k + 1)) buf) hf
    refine ⟨r, ?_, ?_⟩
    · rw [hs, tree_loop, hhalf, ← hs]; exact hr
    · rw [hr0]
      exact treeVal_step combine buf (k + 1) (k + 1) 1 0 (by ring) (by norm_num)

theorem reduce_pow {α : Type} (combine : α → α → α) (n : Nat) (buf : Nat → α) :
    ∃ r, reduce_1d_local_memory combine (2 ^ n) buf = some r ∧
      r 0 = treeVal combine buf n 1 0 := by
  cases n with
  | zero => exact ⟨buf, by simp [reduce_1d_local_memory, tree_loop], by simp [treeVal]⟩
  | succ k =>
    have hhalf : 2 ^ (k + 1) / 2 = 2 ^ k := by rw [pow_succ]; omega
    have hle : 2 ^ k ≤ 2 ^ (k + 1) := by rw [pow_succ]; omega
    obtain ⟨r, hr, hr0⟩ := tree_loop_pow combine k (2 ^ (k + 1)) buf hle
    exact ⟨r, by rw [reduce_1d_local_memory, hhalf]; exact hr, hr0⟩

theorem mem_treeLeaves :
    ∀ (k w i x : Nat), x ∈ treeLeaves k w i ↔ ∃ j, j < 2 ^ k ∧ x = i + j * w := by
  intro k
  induction k with
  | zero =>
    intro w i x
    simp [treeLeaves]
  | succ k ih =>
    intro w i x
    rw [treeLeaves, List.mem_append, ih, ih]
    constructor
    · rintro (⟨j, hj, rfl⟩ | ⟨j, hj, rfl⟩)
      · exact ⟨2 * j, by rw [pow_succ]; omega, by ring⟩
      · exact ⟨2 * j + 1, by rw [pow_succ]; omega, by ring⟩
    · rintro ⟨j, hj, rfl⟩
      rw [pow_succ] at hj
      rcases Nat.even_or_odd' j with ⟨m, rfl | rfl⟩
      · exact Or.inl ⟨m, by omega, by ring⟩
      · exact Or.inr ⟨m, by omega, by ring⟩

theorem nodup_treeLeaves :
    ∀ (k w i : Nat), 0 < w → (treeLeaves k w i).Nodup := by
  intro k
  induction k with
  | zero => intro w i _; simp [treeLeaves]
  | succ k ih =>
    intro w i hw
    rw [treeLeaves]
    refine List.Nodup.append (ih _ _ (by omega)) (ih _ _ (by omega)) ?_
    intro x hx hy
    rw [mem_treeLeaves] at hx hy
    obtain ⟨j, _, rfl⟩ := hx
    obtain ⟨j', _, h⟩ := hy
    have h2 : w * (2 * j) = w * (2 * j' + 1) := by
      have e1 : j * (2 * w) = w * (2 * j) := by ring
      have e2 : j' * (2 * w) = w * (2 * j') := by ring
      rw [e1, e2] at h
      rw [Nat.mul_add, Nat.mul_one]
      omega
    have := Nat.eq_of_mul_eq_mul_left hw h2
    omega

theorem treeLeaves_perm_range (n : Nat) : (treeLeaves n 1 0).Perm (List.range (2 ^ n)) := by
  refine (List.perm_ext_iff_of_nodup (nodup_treeLeaves n 1 0 (by norm_num))
    (List.nodup_range _)).2 ?_
  intro x
  rw [mem_treeLeaves, List.mem_range]
  constructor
  · rintro ⟨j, hj, rfl⟩; omega
  · intro h; exact ⟨x, h, by omega⟩

theorem foldl_assoc_left {α : Type} (combine : α → α → α)
    (hassoc : ∀ a b c, combine (combine a b) c = combine a (combine b c)) :
    ∀ (l : List α) (a b : α), combine a (l.foldl combine b) = l.foldl combine (combine a b) := by
  intro l
  induction l with
  | nil => intro a b; rfl
  | cons x l ih =>
    intro a b
    simp only [List.foldl_cons]
    rw [ih, hassoc]

theorem treeVal_eq_fold {α : Type} (combine : α → α → α)
    (hassoc : ∀ a b c, combine (combine a b) c = combine a (combine b c)) (buf : Nat → α) :
    ∀ (k w i : Nat), ∃ t, treeLeaves k w i = i :: t ∧
      treeVal combine buf k w i = (t.map buf).foldl combine (buf i) := by
  intro k
  induction k with
  | zero => intro w i; exact ⟨[], rfl, rfl⟩
  | succ k ih =>
    intro w i
    obtain ⟨t1, h1, e1⟩ := ih (2 * w) i
    obtain ⟨t2, h2, e2⟩ := ih (2 * w) (i + w)
    refine ⟨t1 ++ (i + w) :: t2, by rw [treeLeaves, h1, h2]; rfl, ?_⟩
    rw [treeVal, e1, e2, List.map_append, List.foldl_append, List.map_cons, List.foldl_cons]
    exact foldl_assoc_left combine hassoc _ _ _

theorem treeVal_eq_foldl_range {α : Type} (combine : α → α → α)
    (hassoc : ∀ a b c, combine (combine a b) c = combine a (combine b c))
    (hcomm : ∀ a b, combine a b = combine b a) (buf : Nat → α) (n : Nat) :
    treeVal combine buf n 1 0
      = ((List.range' 1 (2 ^ n - 1)).map buf).foldl combine (buf 0) := by
  obtain ⟨t, ht, e⟩ := treeVal_eq_fold combine hassoc buf n 1 0
  have hp := treeLeaves_perm_range n
  obtain ⟨m, hm⟩ : ∃ m, 2 ^ n = m + 1 := ⟨2 ^ n - 1, by have := Nat.two_pow_pos n; omega⟩
  rw [ht, hm, List.range_eq_range', List.range'_succ] at hp
  have hp2 : t.Perm (List.range' 1 m) := by simpa using hp.cons_inv
  rw [e, hm, Nat.add_sub_cancel]
  refine (hp2.map buf).foldl_eq' ?_ _
  intro x _ y _ z
  rw [hassoc, hcomm x y, ← hassoc]

theorem tree_loop_dep {α : Type} (combine : α → α → α) :
    ∀ (fuel stride : Nat) (buf buf' r r' : Nat → α),
      tree_loop combine fuel stride buf = some r →
      tree_loop combine fuel stride buf' = some r' →
      (∀ i, i ≤ reach fuel stride → buf i = buf' i) → r 0 = r' 0 := by
  intro fuel
  induction fuel with
  | zero =>
    intro stride buf buf' r r' h h' hag
    cases stride with
    | zero =>
      simp only [tree_loop, Option.some.injEq] at h h'
      subst h; subst h'
      exact hag 0 (Nat.zero_le _)
    | succ s => simp [tree_loop] at h
  | succ f ih =>
    intro stride buf buf' r r' h h' hag
    cases stride with
    | zero =>
      simp only [tree_loop, Option.some.injEq] at h h'
      subst h; subst h'
      exact hag 0 (Nat.zero_le _)
    | succ s =>
      rw [tree_loop] at h h'
      refine ih _ _ _ r r' h h' ?_
      intro i hi
      have hR : reach (f + 1) (s + 1) = (s + 1) + reach f ((s + 1) / 2) := rfl
      unfold tree_step
      by_cases hlt : i < s + 1
      · simp only [hlt, if_true]
        rw [hag i (by omega), hag (i + (s + 1)) (by omega)]
      · simp only [hlt, if_false]
        exact hag i (by omega)

theorem reach_zero (fuel : Nat) : reach fuel 0 = 0 := by
  cases fuel <;> rfl

theorem reach_bound :
    ∀ (fuel stride : Nat), 1 ≤ stride →
      reach fuel stride + 1 ≤ 2 * stride ∧
      ((¬ ∃ n, stride = 2 ^ n) → reach fuel stride + 2 ≤ 2 * stride) := by
  intro fuel
  induction fuel with
  | zero =>
    intro stride h
    refine ⟨by simp [reach]; omega, ?_⟩
    intro hn
    have : stride ≠ 1 := fun e => hn ⟨0, by simp [e]⟩
    simp [reach]; omega
  | succ f ih =>
    intro stride h
    obtain ⟨s, rfl⟩ : ∃ s, stride = s + 1 := ⟨stride - 1, by omega⟩
    have hR : reach (f + 1) (s + 1) = (s + 1) + reach f ((s + 1) / 2) := rfl
    rw [hR]
    by_cases ht : (s + 1) / 2 = 0
    · have hs : s = 0 := by omega
      subst hs
      simp only [ht, reach_zero]
      refine ⟨by omega, ?_⟩
      intro hn
      exact absurd ⟨0, by simp⟩ hn
    · obtain ⟨h1, h2⟩ := ih ((s + 1) / 2) (by omega)
      refine ⟨by omega, ?_⟩
      intro hn
      rcases Nat.even_or_odd' (s + 1) with ⟨t, ht2 | ht2⟩
      · have hnt : ¬ ∃ n, (s + 1) / 2 = 2 ^ n := by
          rintro ⟨n, hn2⟩
          exact hn ⟨n + 1, by rw [pow_succ]; omega⟩
        have := h2 hnt
        omega
      · omega

theorem reach_reduce (G : Nat) (hG : 1 < G) (hn : ¬ ∃ n, G = 2 ^ n) :
    reach G (G / 2) + 2 ≤ G := by
  obtain ⟨h1, h2⟩ := reach_bound G (G / 2) (by omega)
  rcases Nat.even_or_odd' G with ⟨t, ht | ht⟩
  · have hnt : ¬ ∃ n, G / 2 = 2 ^ n := by
      rintro ⟨n, hn2⟩
      exact hn ⟨n + 1, by rw [pow_succ]; omega⟩
    have := h2 hnt
    omega
  · omega

theorem sum_indicator (m : Nat) :
    ((List.range (m + 1)).map (fun i => if i = m then (1 : Int) else 0)).sum = 1 := by
  rw [List.range_succ, List.map_append, List.sum_append]
  have hz : ((List.range m).map (fun i => if i = m then (1 : Int) else 0)) =
      (List.range m).map (fun _ => (0 : Int)) := by
    apply List.map_congr_left
    intro i hi
    have : i ≠ m := by rw [List.mem_range] at hi; omega
    simp [this]
  rw [hz]
  simp

theorem not_pow_three : ¬ ∃ n, 3 = 2 ^ n := by
  rintro ⟨n, h⟩
  cases n with
  | zero => simp at h
  | succ n => rw [pow_succ] at h; omega

/-- C7: for a group size `G = 2^n` the loop of `reduce_1d_local_memory`
terminates, and afterwards slot 0 holds the balanced tree `C(0,1)` over the
`G` original entries; the leaves of that tree are the slots `0..G-1`, each
once; and for an associative and commutative combine the value is the
left fold of the `G` entries. -/
theorem C7_tree_reduce_pow2 {α : Type} (combine : α → α → α) (n : Nat) (slots : Nat → α) :
    ∃ r, reduce_1d_local_memory combine (2 ^ n) slots = some r ∧
      r 0 = treeVal combine slots n 1 0 ∧
      (treeLeaves n 1 0).Perm (List.range (2 ^ n)) ∧
      ((∀ a b c, combine (combine a b) c = combine a (combine b c)) →
        (∀ a b, combine a b = combine b a) →
        r 0 = ((List.range' 1 (2 ^ n - 1)).map slots).foldl combine (slots 0)) := by
  obtain ⟨r, hr, hr0⟩ := reduce_pow combine n slots
  refine ⟨r, hr, hr0, treeLeaves_perm_range n, ?_⟩
  intro hassoc hcomm
  rw [hr0]
  exact treeVal_eq_foldl_range combine hassoc hcomm slots n

/-- Witness of C7 at `G = 4`, the sum operator and the entries `3, 1, 4, 1`:
slot 0 ends as `(3 + 4) + (1 + 1) = 9`. -/
theorem C7_tree_reduce_pow2_witness :
    ∃ r, reduce_1d_local_memory (fun a b : Int => a + b) (2 ^ 2)
        (fun i => [3, 1, 4, 1].getD i 0) = some r ∧ r 0 = 9 := by
  obtain ⟨r, hr, _, _, hfold⟩ :=
    C7_tree_reduce_pow2 (fun a b : Int => a + b) 2 (fun i => [3, 1, 4, 1].getD i 0)
  refine ⟨r, hr, ?_⟩
  rw [hfold (fun a b c => Int.add_assoc a b c) (fun a b => Int.add_comm a b)]
  decide

/-- C9: for a group size `G > 1` that is not a power of two the loop of
`reduce_1d_local_memory` still runs to completion (nothing rejects `G`), but
the entry of slot `G-1` never reaches slot 0, whatever the combine rule; for
the sum operator there are entries for which slot 0 is not the sum of the
`G` entries. -/
theorem C9_non_pow2_drops_slot (G : Nat) (hG : 1 < G) (hn : ¬ ∃ n, G = 2 ^ n) :
    (∀ (α : Type) (combine : α → α → α) (buf : Nat → α),
        ∃ r, reduce_1d_local_memory combine G buf = some r) ∧
    (∃ j, j < G ∧ ∀ (α : Type) (combine : α → α → α) (buf buf' r r' : Nat → α),
        (∀ i, i ≠ j → buf i = buf' i) →
        reduce_1d_local_memory combine G buf = some r →
        reduce_1d_local_memory combine G buf' = some r' → r 0 = r' 0) ∧
    (∃ (buf r : Nat → Int),
        reduce_1d_local_memory (fun a b : Int => a + b) G buf = some r ∧
        r 0 ≠ ((List.range G).map buf).sum) := by
  have hreach := reach_reduce G hG hn
  have hdep : ∀ (α : Type) (combine : α → α → α) (buf buf' r r' : Nat → α),
      (∀ i, i ≠ G - 1 → buf i = buf' i) →
      reduce_1d_local_memory combine G buf = some r →
      reduce_1d_local_memory combine G buf' = some r' → r 0 = r' 0 := by
    intro α combine buf buf' r r' hag h h'
    exact tree_loop_dep combine G (G / 2) buf buf' r r' h h'
      (fun i hi => hag i (by omega))
  have htot : ∀ (α : Type) (combine : α → α → α) (buf : Nat → α),
      ∃ r, reduce_1d_local_memory combine G buf = some r :=
    fun α combine buf => tree_loop_total combine G (G / 2) buf (by omega)
  refine ⟨htot, ⟨G - 1, by omega, hdep⟩, ?_⟩
  obtain ⟨r0, h0⟩ := htot Int (fun a b => a + b) (fun _ => 0)
  obtain ⟨r1, h1⟩ := htot Int (fun a b => a + b) (fun i => if i = G - 1 then 1 else 0)
  have heq : r0 0 = r1 0 := by
    refine hdep Int _ _ _ r0 r1 ?_ h0 h1
    intro i hi
    simp [hi]
  by_cases hz : r0 0 = 0
  · refine ⟨_, r1, h1, ?_⟩
    obtain ⟨m, rfl⟩ : ∃ m, G = m + 1 := ⟨G - 1, by omega⟩
    rw [Nat.add_sub_cancel, sum_indicator, ← heq, hz]
    decide
  · refine ⟨_, r0, h0, ?_⟩
    simpa using hz

/-- Witness of C9 at `G = 3`: only the pass with stride 1 runs, and slot 2
is never combined into slot 0. -/
theorem C9_non_pow2_drops_slot_witness :
    ∃ (buf r : Nat → Int),
        reduce_1d_local_memory (fun a b : Int => a + b) 3 buf = some r ∧
        r 0 ≠ ((List.range 3).map buf).sum :=
  (C9_non_pow2_drops_slot 3 (by decide) not_pow_three).2.2

/-! Properties of the scratch layout. -/

theorem footprint_eq (s ng : Nat) (rd : Reduction) :
    footprint s ng rd = (if rd.indexing then 4 * ng else 0) + s * ng := by
  unfold footprint; split <;> simp

theorem totalFootprint_cons (s ng : Nat) (rd : Reduction) (rds : List Reduction) :
    totalFootprint s ng (rd :: rds) = footprint s ng rd + totalFootprint s ng rds := by
  simp [totalFootprint]

theorem totalFootprint_append (s ng : Nat) (l₁ l₂ : List Reduction) :
    totalFootprint s ng (l₁ ++ l₂) = totalFootprint s ng l₁ + totalFootprint s ng l₂ := by
  simp [totalFootprint]

/-- One descriptor of the loop when the running offset does not wrap: its
declarations, then the rest of the loop from the offset moved by its
footprint. -/
theorem unroll_tmp_loop_cons (sdtype : String) (s ng : Nat) (rd : Reduction)
    (rest : List Reduction) (off : Nat) (h : off + footprint s ng rd < UINT_MOD) :
    unroll_tmp_loop sdtype s ng (rd :: rest) off
      = (descriptorDecls sdtype s ng rd off
          ++ (unroll_tmp_loop sdtype s ng rest (off + footprint s ng rd)).1,
         (unroll_tmp_loop sdtype s ng rest (off + footprint s ng rd)).2) := by
  rw [unroll_tmp_loop]
  unfold descriptorDecls
  cases hi : rd.indexing
  · simp only [footprint, hi] at h
    have e1 : (off + s * ng) % UINT_MOD = off + s * ng := Nat.mod_eq_of_lt h
    simp [footprint, hi, e1]
  · simp only [footprint, hi, if_true] at h
    have e1 : (off + (4 * ng) % UINT_MOD) % UINT_MOD = off + 4 * ng := by
      rw [Nat.mod_eq_of_lt (by omega : 4 * ng < UINT_MOD)]
      exact Nat.mod_eq_of_lt (by omega)
    have e2 : (off + 4 * ng + s * ng) % UINT_MOD = off + (4 * ng + s * ng) := by
      rw [Nat.mod_eq_of_lt (by omega)]; omega
    simp [footprint, hi, e1, e2]

theorem unroll_tmp_loop_split (sdtype : String) (s ng : Nat) :
    ∀ (pre : List Reduction) (rd : Reduction) (post : List Reduction) (off : Nat),
      off + totalFootprint s ng (pre ++ rd :: post) < UINT_MOD →
      (unroll_tmp_loop sdtype s ng (pre ++ rd :: post) off).1
        = (unroll_tmp_loop sdtype s ng pre off).1
          ++ descriptorDecls sdtype s ng rd (off + totalFootprint s ng pre)
          ++ (unroll_tmp_loop sdtype s ng post
                (off + totalFootprint s ng pre + footprint s ng rd)).1 := by
  intro pre
  induction pre with
  | nil =>
    intro rd post off h
    rw [List.nil_append, totalFootprint_cons] at h
    rw [List.nil_append, unroll_tmp_loop_cons sdtype s ng rd post off (by omega)]
    simp [totalFootprint, unroll_tmp_loop]
  | cons p pre ih =>
    intro rd post off h
    rw [List.cons_append, totalFootprint_cons] at h
    have hih := ih rd post (off + footprint s ng p) (by omega)
    have hpre : totalFootprint s ng (pre ++ rd :: post) = totalFootprint s ng pre +
        totalFootprint s ng (rd :: post) := totalFootprint_append s ng pre (rd :: post)
    rw [List.cons_append, unroll_tmp_loop_cons sdtype s ng p _ off (by omega),
      unroll_tmp_loop_cons sdtype s ng p _ off (by omega), totalFootprint_cons]
    simp only [hih, List.append_assoc, Nat.add_assoc]

/-- The value of `offset` at the end of the loop when nothing wraps. -/
theorem unroll_tmp_loop_end (sdtype : String) (s ng : Nat) :
    ∀ (rds : List Reduction) (off : Nat),
      off + totalFootprint s ng rds < UINT_MOD →
      (unroll_tmp_loop sdtype s ng rds off).2 = off + totalFootprint s ng rds := by
  intro rds
  induction rds with
  | nil => intro off _; simp [unroll_tmp_loop, totalFootprint]
  | cons rd rest ih =>
    intro off h
    rw [totalFootprint_cons] at h
    rw [unroll_tmp_loop_cons sdtype s ng rd rest off (by omega), totalFootprint_cons]
    simp only
    rw [ih (off + footprint s ng rd) (by omega)]
    omega

/-- Every declaration of the loop, all `ng` slots included, lies between the
starting offset and the offset at which the layout ends, when nothing
wraps. -/
theorem unroll_tmp_loop_bounds (sdtype : String) (s ng : Nat) :
    ∀ (rds : List Reduction) (off : Nat),
      off + totalFootprint s ng rds < UINT_MOD →
      ∀ d ∈ (unroll_tmp_loop sdtype s ng rds off).1,
        off ≤ d.offset ∧ d.offset + d.width * ng ≤ off + totalFootprint s ng rds := by
  intro rds
  induction rds with
  | nil => intro off _ d hd; simp [unroll_tmp_loop] at hd
  | cons rd rest ih =>
    intro off h d hd
    rw [totalFootprint_cons] at h
    rw [unroll_tmp_loop_cons sdtype s ng rd rest off (by omega)] at hd
    rw [totalFootprint_cons]
    simp only [List.mem_append] at hd
    rcases hd with hd | hd
    · unfold descriptorDecls at hd
      have hf := footprint_eq s ng rd
      cases hi : rd.indexing
      · simp only [hi] at hd hf
        simp only [Bool.false_eq_true, if_false, List.mem_singleton] at hd hf
        subst hd
        simp only
        omega
      · simp only [hi, if_true, List.mem_cons, List.mem_singleton, List.not_mem_nil,
          or_false] at hd hf
        rcases hd with hd | hd <;> subst hd <;> simp only <;> omega
    · have := ih (off + footprint s ng rd) (by omega) d hd
      omega

/-- Consecutive regions do not overlap when nothing wraps: each one ends
before every later one starts. -/
theorem unroll_tmp_loop_pairwise (sdtype : String) (s ng : Nat) :
    ∀ (rds : List Reduction) (off : Nat),
      off + totalFootprint s ng rds < UINT_MOD →
      (unroll_tmp_loop sdtype s ng rds off).1.Pairwise
        (fun a b => a.offset + a.width * ng ≤ b.offset) := by
  intro rds
  induction rds with
  | nil => intro off _; simp [unroll_tmp_loop]
  | cons rd rest ih =>
    intro off h
    rw [totalFootprint_cons] at h
    rw [unroll_tmp_loop_cons sdtype s ng rd rest off (by omega)]
    simp only
    rw [List.pairwise_append]
    have hf := footprint_eq s ng rd
    refine ⟨?_, ih _ (by omega), ?_⟩
    · unfold descriptorDecls
      cases hi : rd.indexing <;> simp
    · intro a ha b hb
      have hb2 := (unroll_tmp_loop_bounds sdtype s ng rest _ (by omega) b hb).1
      unfold descriptorDecls at ha
      cases hi : rd.indexing
      · simp only [hi] at ha hf
        simp only [Bool.false_eq_true, if_false, List.mem_singleton] at ha hf
        subst ha
        simp only
        omega
      · simp only [hi, if_true, List.mem_cons, List.mem_singleton, List.not_mem_nil,
          or_false] at ha hf
        rcases ha with ha | ha <;> subst ha <;> simp only <;> omega

/-- Alignment through the wrapping offset when the element size divides
`2^32`. -/
theorem unroll_tmp_loop_aligned (sdtype : String) (s ng : Nat)
    (h4 : 4 ∣ s * ng) (hs : s ∣ 4 * ng) (hm : s ∣ UINT_MOD) :
    ∀ (rds : List Reduction) (off : Nat), 4 ∣ off → s ∣ off →
      ∀ d ∈ (unroll_tmp_loop sdtype s ng rds off).1,
        4 ∣ d.offset ∧ s ∣ d.offset ∧ (d.width = 4 ∨ d.width = s) := by
  have hm4 : 4 ∣ UINT_MOD := ⟨2 ^ 30, by unfold UINT_MOD; norm_num⟩
  have step : ∀ (k off x : Nat), k ∣ UINT_MOD → k ∣ off → k ∣ x → k ∣ (off + x) % UINT_MOD :=
    fun k off x hk ho hx => (Nat.dvd_mod_iff hk).2 (Nat.dvd_add ho hx)
  intro rds
  induction rds with
  | nil => intro off _ _ d hd; simp [unroll_tmp_loop] at hd
  | cons rd rest ih =>
    intro off ho4 hos d hd
    rw [unroll_tmp_loop] at hd
    have h4ng : 4 ∣ 4 * ng := Dvd.intro _ rfl
    have hsng : s ∣ s * ng := Dvd.intro _ rfl
    cases hi : rd.indexing
    · simp only [hi, Bool.false_eq_true, if_false, List.mem_cons] at hd
      rcases hd with hd | hd
      · subst hd; exact ⟨ho4, hos, Or.inr rfl⟩
      · exact ih _ (step 4 _ _ hm4 ho4 h4) (step s _ _ hm hos hsng) d hd
    · simp only [hi, if_true, List.mem_cons] at hd
      have a4 : 4 ∣ (off + 4 * ng % UINT_MOD) % UINT_MOD :=
        step 4 _ _ hm4 ho4 ((Nat.dvd_mod_iff hm4).2 h4ng)
      have as : s ∣ (off + 4 * ng % UINT_MOD) % UINT_MOD :=
        step s _ _ hm hos ((Nat.dvd_mod_iff hm).2 hs)
      rcases hd with hd | hd | hd
      · subst hd; exact ⟨ho4, hos, Or.inl rfl⟩
      · subst hd; exact ⟨a4, as, Or.inr rfl⟩
      · exact ih _ (step 4 _ _ hm4 a4 h4) (step s _ _ hm as hsng) d hd

/-- Alignment when the layout stays below `2^32` bytes, for any element
size. -/
theorem unroll_tmp_loop_aligned_fit (sdtype : String) (s ng : Nat)
    (h4 : 4 ∣ s * ng) (hs : s ∣ 4 * ng) :
    ∀ (rds : List Reduction) (off : Nat), off + totalFootprint s ng rds < UINT_MOD →
      4 ∣ off → s ∣ off →
      ∀ d ∈ (unroll_tmp_loop sdtype s ng rds off).1,
        4 ∣ d.offset ∧ s ∣ d.offset ∧ (d.width = 4 ∨ d.width = s) := by
  intro rds
  induction rds with
  | nil => intro off _ _ _ d hd; simp [unroll_tmp_loop] at hd
  | cons rd rest ih =>
    intro off h ho4 hos d hd
    rw [totalFootprint_cons] at h
    rw [unroll_tmp_loop_cons sdtype s ng rd rest off (by omega)] at hd
    have h4ng : 4 ∣ 4 * ng := Dvd.intro _ rfl
    have hsng : s ∣ s * ng := Dvd.intro _ rfl
    simp only [List.mem_append] at hd
    rcases hd with hd | hd
    · unfold descriptorDecls at hd
      cases hi : rd.indexing
      · simp only [hi, Bool.false_eq_true, if_false, List.mem_singleton] at hd
        subst hd; exact ⟨ho4, hos, Or.inr rfl⟩
      · simp only [hi, if_true, List.mem_cons, List.mem_singleton, List.not_mem_nil,
          or_false] at hd
        rcases hd with hd | hd
        · subst hd; exact ⟨ho4, hos, Or.inl rfl⟩
        · subst hd; exact ⟨Nat.dvd_add ho4 h4ng, Nat.dvd_add hos hs, Or.inr rfl⟩
    · have hf4 : 4 ∣ footprint s ng rd := by
        unfold footprint; split
        · exact Nat.dvd_add h4ng h4
        · exact h4
      have hfs : s ∣ footprint s ng rd := by
        unfold footprint; split
        · exact Nat.dvd_add hs hsng
        · exact hsng
      exact ih _ (by omega) (Nat.dvd_add ho4 hf4) (Nat.dvd_add hos hfs) d hd

/-- C3 (counterexample): for one value-only descriptor over a 4-byte type and
`K = 2` the method returns 2, while `K` times the per-descriptor footprint
summed over the descriptors is 8. -/
theorem C3_counterexample :
    temporary_workspace 2 ⟨[⟨"r0", false⟩], "float", 4⟩ = 2 ∧
    spec_workspace_bytes 2 ⟨[⟨"r0", false⟩], "float", 4⟩ = 8 ∧
    temporary_workspace 2 ⟨[⟨"r0", false⟩], "float", 4⟩
      ≠ spec_workspace_bytes 2 ⟨[⟨"r0", false⟩], "float", 4⟩ := by
  decide

/-- C3 (amended): `temporary_workspace` returns the group count `K` itself
when `K > 1` and zero when `K ≤ 1`; the result is the same for every
expression tree. -/
theorem C3_temporary_workspace_is_group_count (K : Nat) (tree tree' : expression_tree) :
    temporary_workspace K tree = (if 1 < K then K else 0) ∧
    temporary_workspace K tree' = temporary_workspace K tree := by
  exact ⟨rfl, rfl⟩

/-- C4 (counterexample): for one value-only descriptor over a 4-byte type and
`K = 2` the layout ends at byte 8 while `temporary_workspace` returns 2; for
`K = 1` the layout ends at byte 4 and the method returns 0. -/
theorem C4_counterexample :
    ¬ ((unroll_tmp ⟨[⟨"r0", false⟩], "float", 4⟩ 2).2
        ≤ temporary_workspace 2 ⟨[⟨"r0", false⟩], "float", 4⟩) ∧
    ¬ ((unroll_tmp ⟨[⟨"r0", false⟩], "float", 4⟩ 1).2
        ≤ temporary_workspace 1 ⟨[⟨"r0", false⟩], "float", 4⟩) := by
  decide

/-- C4 (amended): when the sum of the footprints stays below `2^32`, the
offset at which the layout of `unroll_tmp` ends is that sum, and every slot
`gpid < K` of every declared region ends at or before it;
`temporary_workspace` returns `K`, the number of slots of one region, for
`K > 1` and 0 for `K ≤ 1`. -/
theorem C4_slots_inside_layout (tree : expression_tree) (K : Nat)
    (hfit : totalFootprint tree.size_of_dtype K tree.reductions < UINT_MOD) :
    (unroll_tmp tree K).2 = totalFootprint tree.size_of_dtype K tree.reductions ∧
    (∀ d ∈ (unroll_tmp tree K).1, ∀ gpid, gpid < K →
        d.offset + (gpid + 1) * d.width ≤ (unroll_tmp tree K).2) ∧
    temporary_workspace K tree = (if 1 < K then K else 0) := by
  have hend := unroll_tmp_loop_end tree.sdtype tree.size_of_dtype K tree.reductions 0
    (by omega)
  rw [Nat.zero_add] at hend
  refine ⟨hend, ?_, rfl⟩
  intro d hd gpid hg
  have hb := (unroll_tmp_loop_bounds tree.sdtype tree.size_of_dtype K tree.reductions 0
    (by omega) d hd).2
  rw [Nat.zero_add] at hb
  unfold unroll_tmp
  rw [hend]
  have hmul : (gpid + 1) * d.width ≤ d.width * K := by
    rw [Nat.mul_comm d.width K]
    exact Nat.mul_le_mul_right _ hg
  omega

/-- Witness of C4 (amended): an argmax and a sum fused over `float`, `K = 3`;
the layout ends at byte 36 and the method returns 3. -/
theorem C4_slots_inside_layout_witness :
    (unroll_tmp ⟨[⟨"r0", true⟩, ⟨"r1", false⟩], "float", 4⟩ 3).2 = 36 ∧
    (∀ d ∈ (unroll_tmp ⟨[⟨"r0", true⟩, ⟨"r1", false⟩], "float", 4⟩ 3).1, ∀ gpid, gpid < 3 →
        d.offset + (gpid + 1) * d.width ≤ 36) ∧
    temporary_workspace 3 ⟨[⟨"r0", true⟩, ⟨"r1", false⟩], "float", 4⟩ = 3 := by
  have h := C4_slots_inside_layout ⟨[⟨"r0", true⟩, ⟨"r1", false⟩], "float", 4⟩ 3 (by decide)
  have e : (unroll_tmp ⟨[⟨"r0", true⟩, ⟨"r1", false⟩], "float", 4⟩ 3).2 = 36 := by decide
  exact ⟨e, fun d hd g hg => e ▸ h.2.1 d hd g hg, h.2.2⟩

/-- C5 (counterexample): two sums over `float` with `K = 2^30`: the footprint
of the first is `2^32` bytes, which wraps to 0 in the 32-bit offset, so the
region of the second is declared at byte 0 as well, on top of the first. -/
theorem C5_counterexample :
    (unroll_tmp ⟨[⟨"a", false⟩, ⟨"b", false⟩], "float", 4⟩ (2 ^ 30)).1.map
        (fun d => (d.name, d.offset)) = [("a_temp", 0), ("b_temp", 0)] ∧
    footprint 4 (2 ^ 30) ⟨"a", false⟩ = 2 ^ 32 ∧
    ¬ (unroll_tmp ⟨[⟨"a", false⟩, ⟨"b", false⟩], "float", 4⟩ (2 ^ 30)).1.Pairwise
      (fun a b => a.offset + a.width * 2 ^ 30 ≤ b.offset) := by
  decide

/-- C5 (amended): when the sum of the footprints stays below `2^32`, then for
the list split at any descriptor the declarations of that descriptor start
at the sum of the footprints of the descriptors before it (`s*K` bytes for a
value-only one, `4*K + s*K` for an indexing one, whose value slots start
`4*K` bytes after its index slots); and in the whole layout every region of
`K` slots ends before each later region starts, so the regions are pairwise
disjoint. -/
theorem C5_layout_running_sums (sdtype : String) (s K : Nat)
    (pre : List Reduction) (rd : Reduction) (post : List Reduction)
    (hfit : totalFootprint s K (pre ++ rd :: post) < UINT_MOD) :
    (unroll_tmp ⟨pre ++ rd :: post, sdtype, s⟩ K).1
        = (unroll_tmp ⟨pre, sdtype, s⟩ K).1
          ++ descriptorDecls sdtype s K rd (totalFootprint s K pre)
          ++ (unroll_tmp_loop sdtype s K post
               (totalFootprint s K pre + footprint s K rd)).1 ∧
    (unroll_tmp ⟨pre ++ rd :: post, sdtype, s⟩ K).1.Pairwise
      (fun a b => a.offset + a.width * K ≤ b.offset) ∧
    footprint s K rd = (if rd.indexing then 4 * K + s * K else s * K) := by
  have hfit0 : 0 + totalFootprint s K (pre ++ rd :: post) < UINT_MOD := by omega
  refine ⟨?_, unroll_tmp_loop_pairwise sdtype s K (pre ++ rd :: post) 0 hfit0, rfl⟩
  have h := unroll_tmp_loop_split sdtype s K pre rd post 0 hfit0
  simp only [Nat.zero_add] at h
  exact h

/-- Witness of C5 (amended): a sum, an argmax and a max fused over `float`
with `K = 2` are laid out at bytes 0, 8 (index), 16 (value) and 24. -/
theorem C5_layout_running_sums_witness :
    (unroll_tmp ⟨[⟨"a", false⟩] ++ ⟨"b", true⟩ :: [⟨"c", false⟩], "float", 4⟩ 2).1
      = [⟨"float", "a_temp", 0, 4, false⟩] ++ [⟨"uint", "b_temp", 8, 4, true⟩,
          ⟨"float", "b_temp_value", 16, 4, false⟩] ++ [⟨"float", "c_temp", 24, 4, false⟩] :=
  (C5_layout_running_sums "float" 4 2 [⟨"a", false⟩] ⟨"b", true⟩ [⟨"c", false⟩]
    (by decide)).1

/-- C6: both runs of `unroll_tmp` in `generate_impl` emit the same
declarations (name, type and offset, in the same order) and the same text;
a run appends text that does not depend on what the stream held before. -/
theorem C6_same_declarations_in_both_kernels (tree : expression_tree) (K : Nat)
    (head1 body1 head2 body2 : List String) :
    (generate_impl tree K head1 body1 head2 body2).2.1
      = (generate_impl tree K head1 body1 head2 body2).2.2 ∧
    (generate_impl tree K head1 body1 head2 body2).1
      = head1 ++ (generate_impl tree K head1 body1 head2 body2).2.1.map TmpDecl.render
          ++ body1 ++ head2
          ++ (generate_impl tree K head1 body1 head2 body2).2.2.map TmpDecl.render
          ++ body2 ∧
    (∀ stream stream' : List String, ∃ D,
      unroll_tmp_emit tree K stream = stream ++ D ∧
      unroll_tmp_emit tree K stream' = stream' ++ D) := by
  refine ⟨rfl, ?_, fun _ _ => ⟨_, rfl, rfl⟩⟩
  simp [generate_impl, unroll_tmp_emit]

/-- C10 (counterexample): an argmax over `double` with `K = 3` puts the value
region at byte 12, not a multiple of 8; a sum followed by an argmax over
`half` with `K = 3` puts the index region at byte 6, not a multiple of 4. -/
theorem C10_counterexample :
    ((unroll_tmp ⟨[⟨"r0", true⟩], "double", 8⟩ 3).1.map
        (fun d => (d.ctype, d.offset, d.width)) = [("uint", 0, 4), ("double", 12, 8)] ∧
      ¬ 8 ∣ 12) ∧
    ((unroll_tmp ⟨[⟨"r0", false⟩, ⟨"r1", true⟩], "half", 2⟩ 3).1.map
        (fun d => (d.ctype, d.offset, d.width))
        = [("half", 0, 2), ("uint", 6, 4), ("half", 18, 2)] ∧
      ¬ 4 ∣ 6) := by
  decide

/-- C10 (amended): when 4 divides `s*K` and `s` divides `4*K` (both hold for a
4-byte element type), and the element size `s` divides `2^32` or the sum of
the footprints stays below `2^32`, every declaration of `unroll_tmp` starts
at a multiple of the size of its pointee, which is 4 for an index region and
`s` for a value region. -/
theorem C10_offsets_aligned (tree : expression_tree) (K : Nat)
    (h4 : 4 ∣ tree.size_of_dtype * K) (hs : tree.size_of_dtype ∣ 4 * K)
    (hm : tree.size_of_dtype ∣ UINT_MOD ∨
      totalFootprint tree.size_of_dtype K tree.reductions < UINT_MOD) :
    ∀ d ∈ (unroll_tmp tree K).1,
      d.width ∣ d.offset ∧ (d.width = 4 ∨ d.width = tree.size_of_dtype) := by
  intro d hd
  have key : 4 ∣ d.offset ∧ tree.size_of_dtype ∣ d.offset ∧
      (d.width = 4 ∨ d.width = tree.size_of_dtype) := by
    rcases hm with hm | hm
    · exact unroll_tmp_loop_aligned tree.sdtype tree.size_of_dtype K h4 hs hm
        tree.reductions 0 (Nat.dvd_zero _) (Nat.dvd_zero _) d hd
    · exact unroll_tmp_loop_aligned_fit tree.sdtype tree.size_of_dtype K h4 hs
        tree.reductions 0 (by omega) (Nat.dvd_zero _) (Nat.dvd_zero _) d hd
  obtain ⟨a4, as, hw⟩ := key
  refine ⟨?_, hw⟩
  rcases hw with hw | hw <;> rw [hw] <;> assumption

/-- Witness of C10 (amended): an argmax and a sum over `float`, `K = 3`; the
value region of the argmax is declared at byte 12, a multiple of 4. -/
theorem C10_offsets_aligned_witness :
    (⟨"float", "r0_temp_value", 12, 4, false⟩ : TmpDecl)
        ∈ (unroll_tmp ⟨[⟨"r0", true⟩, ⟨"r1", false⟩], "float", 4⟩ 3).1 ∧
    ((4 : Nat) ∣ 12 ∧ ((4 : Nat) = 4 ∨ (4 : Nat) = 4)) :=
  ⟨by decide,
   C10_offsets_aligned ⟨[⟨"r0", true⟩, ⟨"r1", false⟩], "float", 4⟩ 3
    (by decide) (by decide) (Or.inl (by decide))
    ⟨"float", "r0_temp_value", 12, 4, false⟩ (by decide)⟩

/-! Properties of the two kernels. -/

end Isaac
